import Mathlib

/-!
Verification of the certificate-serving access-control gate
(`internal/api/certs.go`): the bearer-credential check, the
Forward-Confirmed Reverse DNS (FCrDNS) allowlist verifier, the
`/certs/\x7bdomain\x7d/\x7bfile\x7d` path validator, and the file server.

The Go code is shallowly embedded: every function below mirrors the Go
source (or the Go standard-library function it calls) over `String`,
`List Char` and explicit `Option`/sum results.  DNS resolution and the
filesystem are modelled as an explicit `World` of response functions, and
each handler run also returns the trace of DNS lookups and file reads it
performed, in execution order.
-/

namespace Certs

/-- Models `strings.Contains` restricted to what the handler needs:
`hasSubstrAux sub s` is true iff `sub` occurs as a contiguous substring
of `s` (including the empty substring). -/
def hasSubstrAux (sub : List Char) : List Char → Bool
  | [] => sub.isEmpty
  | c :: rest => sub.isPrefixOf (c :: rest) || hasSubstrAux sub rest

/-- `strings.Contains s sub` over `String`. -/
def strContains (s sub : String) : Bool :=
  hasSubstrAux sub.data s.data

/-- Models `strings.TrimPrefix s pre`: drops `pre` when it is a prefix of
`s`, otherwise returns `s` unchanged. -/
def trimPrefixStr (s pre : String) : String :=
  if pre.data.isPrefixOf s.data then String.mk (s.data.drop pre.data.length) else s

/-- Models `strings.TrimSuffix s suf`: drops `suf` when it is a suffix of
`s`, otherwise returns `s` unchanged. -/
def trimSuffixStr (s suf : String) : String :=
  if suf.data.isSuffixOf s.data then String.mk (s.data.take (s.data.length - suf.data.length))
  else s

/-- Models `strings.EqualFold` at the ASCII level (the only case folding
relevant to host names): case-insensitive string equality, comparing the
characters after lower-casing. -/
def eqFold (a b : String) : Bool :=
  a.data.map Char.toLower == b.data.map Char.toLower

/-- Splits a character list at its first slash: `none` when no slash
occurs, otherwise the parts before and after that first slash. -/
def splitFirstSlash : List Char → Option (List Char × List Char)
  | [] => none
  | c :: rest =>
    if c = '/' then some ([], rest)
    else (splitFirstSlash rest).map (fun p => (c :: p.1, p.2))

/-- Models `strings.SplitN s "/" 2`: one element when `s` has no slash,
otherwise the part before the first slash and everything after it. -/
def splitN2 (s : String) : List String :=
  match splitFirstSlash s.data with
  | none => [s]
  | some (a, b) => [String.mk a, String.mk b]

/-- Index of the first occurrence of `t` in `cs` (Go `byteIndex`). -/
def idxOfChar (t : Char) : List Char → Option Nat
  | [] => none
  | c :: rest =>
    if c = t then some 0
    else (idxOfChar t rest).map (· + 1)

/-- Index of the last occurrence of `t` in `cs` (Go `last`). -/
def lastIdxOfChar (t : Char) : List Char → Option Nat
  | [] => none
  | c :: rest =>
    match lastIdxOfChar t rest with
    | some i => some (i + 1)
    | none => if c = t then some 0 else none

/-- Models `net.SplitHostPort`: splits `"host:port"` (with `[...]`
brackets around IPv6 hosts) into host and port, `none` on the error
cases of the Go implementation (missing port, too many colons, stray or
missing brackets). -/
def splitHostPort (hostPort : String) : Option (String × String) :=
  let cs := hostPort.data
  match lastIdxOfChar ':' cs with
  | none => none
  | some i =>
    if cs.head? = some '[' then
      match idxOfChar ']' cs with
      | none => none
      | some e =>
        if e + 1 = cs.length then none
        else if e + 1 = i then
          if (idxOfChar '[' (cs.drop 1)).isSome then none
          else if (idxOfChar ']' (cs.drop (e + 1))).isSome then none
          else some (String.mk ((cs.drop 1).take (e - 1)), String.mk (cs.drop (i + 1)))
        else none
    else
      if (idxOfChar ':' (cs.take i)).isSome then none
      else if (idxOfChar '[' cs).isSome then none
      else if (idxOfChar ']' cs).isSome then none
      else some (String.mk (cs.take i), String.mk (cs.drop (i + 1)))

/-! ### `path/filepath.Clean` and `path/filepath.Join` (Unix)

`Clean` is embedded at segment granularity, following its documented
rules: split on slashes, drop empty and `.` segments, resolve `..`
against the preceding segment (or drop it at the root of a rooted path),
and render the remaining segments, `"."` for an empty result. -/

/-- Core of slash-splitting: first segment plus the later segments. -/
def splitSlashCore : List Char → List Char × List (List Char)
  | [] => ([], [])
  | c :: rest =>
    if c = '/' then ([], (splitSlashCore rest).1 :: (splitSlashCore rest).2)
    else (c :: (splitSlashCore rest).1, (splitSlashCore rest).2)

/-- All slash-separated segments of a character list (empty segments
included, as produced by repeated or leading slashes). -/
def splitSlash (cs : List Char) : List (List Char) :=
  (splitSlashCore cs).1 :: (splitSlashCore cs).2

/-- Whether a path begins with a slash (Go `path[0] == '/'`). -/
def isRooted : List Char → Bool
  | [] => false
  | c :: _ => c == '/'

/-- One step of `Clean`'s segment processing over an output stack held
most-recent-first: empty and `.` segments are dropped, `..` pops a
preceding non-`..` segment (at an empty stack it is dropped when rooted
and kept when relative), and any other segment is pushed. -/
def stepSeg (rooted : Bool) (stack : List (List Char)) (seg : List Char) : List (List Char) :=
  if seg = [] then stack
  else if seg = ['.'] then stack
  else if seg = ['.', '.'] then
    match stack with
    | top :: rest => if top = ['.', '.'] then seg :: top :: rest else rest
    | [] => if rooted then [] else [seg]
  else seg :: stack

/-- Joins segments with single slashes. -/
def joinSegs : List (List Char) → List Char
  | [] => []
  | [s] => s
  | s :: rest => s ++ '/' :: joinSegs rest

/-- Renders a processed segment stack: rooted paths get a leading slash,
and an empty relative result becomes `"."`. -/
def renderClean (rooted : Bool) (stack : List (List Char)) : List Char :=
  if rooted then '/' :: joinSegs stack.reverse
  else if joinSegs stack.reverse = [] then ['.']
  else joinSegs stack.reverse

/-- `filepath.Clean` over a character list. -/
def cleanChars (cs : List Char) : List Char :=
  renderClean (isRooted cs) ((splitSlash cs).foldl (stepSeg (isRooted cs)) [])

/-- Models `path/filepath.Clean` (Unix). -/
def filepathClean (s : String) : String :=
  String.mk (cleanChars s.data)

/-- Models `strings.Join sep` (used by `filepath.Join`). -/
def goJoin (sep : String) : List String → String
  | [] => ""
  | [s] => s
  | s :: rest => s ++ sep ++ goJoin sep rest

/-- Models `path/filepath.Join`: skip leading empty elements, join the
rest with slashes and `Clean` the result; empty when all elements are
empty. -/
def filepathJoin : List String → String
  | [] => ""
  | e :: rest => if e = "" then filepathJoin rest else filepathClean (goJoin "/" (e :: rest))

/-! ### The data model of the handler -/

/-- `allowedCertFiles` from `certs.go`: the only file names that may be
served (a Go map used as a set; lookup of any other key yields false). -/
def allowedCertFiles (name : String) : Bool :=
  name == "fullchain.pem" || name == "privkey.pem" || name == "cert.pem" || name == "chain.pem"

/-- Result of `os.ReadFile` as the handler distinguishes it: full
contents, an `os.IsNotExist` error, or any other error. -/
inductive FileResult where
  | ok (data : String)
  | errNotExist
  | errOther
deriving DecidableEq

/-- The external world of the handler: reverse DNS (`net.LookupAddr`,
`none` for a resolution error), forward DNS (`net.LookupHost`, `none`
for a resolution error), and the filesystem (`os.ReadFile`). -/
structure World where
  lookupAddr : String → Option (List String)
  lookupHost : String → Option (List String)
  readFile : String → FileResult

/-- One observable side effect of a handler run. -/
inductive Event where
  | dnsReverse (ip : String)
  | dnsForward (host : String)
  | fsRead (path : String)
deriving DecidableEq

/-- The three closure arguments of `CertsHandler`. -/
structure Config where
  bearerToken : String
  dnsAllowlist : List String
  certsBaseDir : String

/-- The parts of an `http.Request` the handler can observe.  A missing
`Authorization` header is the empty string, as returned by
`Header.Get`. -/
structure Request where
  method : String
  urlPath : String
  authorizationHeader : String
  remoteAddr : String

/-- The response the handler writes. -/
structure Response where
  status : Nat
  contentType : Option String
  body : String
deriving DecidableEq

/-- Models `http.Error w msg code`: plain-text content type and the
message followed by a newline. -/
def httpError (msg : String) (code : Nat) : Response :=
  { status := code, contentType := some "text/plain; charset=utf-8", body := msg ++ "\n" }

/-! ### `isAllowedByFCrDNS` -/

/-- The inner allowlist loop of `isAllowedByFCrDNS` for one candidate
`hostname` (a PTR record with its trailing dot stripped): skip entries
that do not match case-insensitively; on a match, forward-resolve
`hostname` and accept if `clientIP` is among the results, treating a
forward resolution error as a non-match and continuing.  Also returns
the forward lookups performed, in order. -/
def fcrdnsInner (W : World) (clientIP hostname : String) : List String → Bool × List Event
  | [] => (false, [])
  | allowed :: rest =>
    if eqFold hostname allowed = false then fcrdnsInner W clientIP hostname rest
    else
      match W.lookupHost hostname with
      | none =>
        ((fcrdnsInner W clientIP hostname rest).1,
          Event.dnsForward hostname :: (fcrdnsInner W clientIP hostname rest).2)
      | some addrs =>
        if addrs.any (fun addr => addr == clientIP) then (true, [Event.dnsForward hostname])
        else
          ((fcrdnsInner W clientIP hostname rest).1,
            Event.dnsForward hostname :: (fcrdnsInner W clientIP hostname rest).2)

/-- The outer PTR loop of `isAllowedByFCrDNS`: each PTR record is
trimmed of its trailing dot and checked against the whole allowlist;
the first confirmed candidate accepts. -/
def fcrdnsOuter (W : World) (clientIP : String) (allowlist : List String) :
    List String → Bool × List Event
  | [] => (false, [])
  | ptr :: rest =>
    if (fcrdnsInner W clientIP (trimSuffixStr ptr ".") allowlist).1 then
      (true, (fcrdnsInner W clientIP (trimSuffixStr ptr ".") allowlist).2)
    else
      ((fcrdnsOuter W clientIP allowlist rest).1,
        (fcrdnsInner W clientIP (trimSuffixStr ptr ".") allowlist).2 ++
          (fcrdnsOuter W clientIP allowlist rest).2)

/-- `isAllowedByFCrDNS` from `certs.go`: reject on an empty allowlist;
reverse-resolve the client IP (reject on error or no PTR records); then
run the PTR/allowlist loops.  Also returns the DNS lookups performed,
in order. -/
def isAllowedByFCrDNS (W : World) (clientIP : String) (allowlist : List String) :
    Bool × List Event :=
  if allowlist.length = 0 then (false, [])
  else
    match W.lookupAddr clientIP with
    | none => (false, [Event.dnsReverse clientIP])
    | some ptrs =>
      if ptrs.length = 0 then (false, [Event.dnsReverse clientIP])
      else
        ((fcrdnsOuter W clientIP allowlist ptrs).1,
          Event.dnsReverse clientIP :: (fcrdnsOuter W clientIP allowlist ptrs).2)

/-! ### `CertsHandler` -/

/-- The handler returned by `CertsHandler bearerToken dnsAllowlist
certsBaseDir`, as a function of the external world and the request,
returning the response written plus the trace of DNS lookups and file
reads performed.  Mirrors the Go control flow stage by stage: bearer
token, `RemoteAddr` parsing, FCrDNS, path shape, domain traversal
check, file-name allowlist, file read. -/
def CertsHandler (cfg : Config) (W : World) (r : Request) : Response × List Event :=
  if r.authorizationHeader = "Bearer " ++ cfg.bearerToken then
    match splitHostPort r.remoteAddr with
    | none => (httpError "Forbidden" 403, [])
    | some (clientIP, _port) =>
      if (isAllowedByFCrDNS W clientIP cfg.dnsAllowlist).1 then
        match splitN2 (trimPrefixStr r.urlPath "/certs/") with
        | [domain, fileName] =>
          if domain = "" then
            (httpError "Bad Request – expected /certs/\x7bdomain\x7d/\x7bfile\x7d" 400,
              (isAllowedByFCrDNS W clientIP cfg.dnsAllowlist).2)
          else if fileName = "" then
            (httpError "Bad Request – expected /certs/\x7bdomain\x7d/\x7bfile\x7d" 400,
              (isAllowedByFCrDNS W clientIP cfg.dnsAllowlist).2)
          else if strContains domain ".." || strContains domain "/" ||
              strContains domain "\\" then
            (httpError "Bad Request" 400, (isAllowedByFCrDNS W clientIP cfg.dnsAllowlist).2)
          else if allowedCertFiles fileName = false then
            (httpError "Not Found" 404, (isAllowedByFCrDNS W clientIP cfg.dnsAllowlist).2)
          else
            match W.readFile (filepathJoin [cfg.certsBaseDir, domain, fileName]) with
            | FileResult.errNotExist =>
              (httpError "Not Found" 404,
                (isAllowedByFCrDNS W clientIP cfg.dnsAllowlist).2 ++
                  [Event.fsRead (filepathJoin [cfg.certsBaseDir, domain, fileName])])
            | FileResult.errOther =>
              (httpError "Internal Server Error" 500,
                (isAllowedByFCrDNS W clientIP cfg.dnsAllowlist).2 ++
                  [Event.fsRead (filepathJoin [cfg.certsBaseDir, domain, fileName])])
            | FileResult.ok data =>
              ({ status := 200, contentType := some "application/x-pem-file", body := data },
                (isAllowedByFCrDNS W clientIP cfg.dnsAllowlist).2 ++
                  [Event.fsRead (filepathJoin [cfg.certsBaseDir, domain, fileName])])
        | _ =>
          (httpError "Bad Request – expected /certs/\x7bdomain\x7d/\x7bfile\x7d" 400,
            (isAllowedByFCrDNS W clientIP cfg.dnsAllowlist).2)
      else
        (httpError "Forbidden" 403, (isAllowedByFCrDNS W clientIP cfg.dnsAllowlist).2)
  else
    (httpError "Unauthorized" 401, [])

/-! ### Lemmas: the FCrDNS loops -/

theorem fcrdnsInner_true_iff (W : World) (ip h : String) (allow : List String) :
    (fcrdnsInner W ip h allow).1 = true ↔
      ∃ a ∈ allow, eqFold h a = true ∧
        ∃ addrs, W.lookupHost h = some addrs ∧ ip ∈ addrs := by
  induction allow with
  | nil => simp [fcrdnsInner]
  | cons allowed rest IH =>
    rw [fcrdnsInner]
    by_cases he : eqFold h allowed = false
    · rw [if_pos he, IH]
      constructor
      · rintro ⟨a, ha, hres⟩; exact ⟨a, List.mem_cons_of_mem _ ha, hres⟩
      · rintro ⟨a, ha, heq, hres⟩
        rcases List.mem_cons.mp ha with rfl | ha2
        · rw [he] at heq; cases heq
        · exact ⟨a, ha2, heq, hres⟩
    · have he2 : eqFold h allowed = true := by
        revert he; cases eqFold h allowed <;> simp
      rw [if_neg he]
      cases hL : W.lookupHost h with
      | none =>
        rw [hL] at IH
        constructor
        · intro hres
          have hres2 : (fcrdnsInner W ip h rest).1 = true := hres
          rcases IH.mp hres2 with ⟨a, ha, heq, addrs, haddr, hm⟩
          cases haddr
        · rintro ⟨a, ha, heq, addrs, haddr, hm⟩
          rcases List.mem_cons.mp ha with rfl | ha2
          · cases haddr
          · exact absurd (IH.mpr ⟨a, ha2, heq, addrs, haddr, hm⟩) (by
              intro hx
              exact absurd (IH.mp hx) (by rintro ⟨b, hb, hbeq, ad, had, hmm⟩; cases had))
      | some addrs =>
        rw [hL] at IH
        cases hany : addrs.any (fun addr => addr == ip) with
        | true =>
          simp only [hany, if_true]
          simp only [List.any_eq_true, beq_iff_eq] at hany
          obtain ⟨x, hx, rfl⟩ := hany
          constructor
          · intro _
            exact ⟨allowed, List.mem_cons_self _ _, he2, addrs, rfl, hx⟩
          · intro _; trivial
        | false =>
          simp only [hany, Bool.false_eq_true, if_false]
          have hnotmem : ip ∉ addrs := by
            intro hm
            have : addrs.any (fun addr => addr == ip) = true :=
              List.any_eq_true.mpr ⟨ip, hm, by simp⟩
            rw [hany] at this; cases this
          constructor
          · intro hres
            have hres2 : (fcrdnsInner W ip h rest).1 = true := hres
            rcases IH.mp hres2 with ⟨a, ha, heq, addrs2, haddr, hm⟩
            exact ⟨a, List.mem_cons_of_mem _ ha, heq, addrs2, haddr, hm⟩
          · rintro ⟨a, ha, heq, addrs2, haddr, hm⟩
            rcases List.mem_cons.mp ha with rfl | ha2
            · obtain rfl : addrs = addrs2 := by injection haddr
              exact absurd hm hnotmem
            · exact IH.mpr ⟨a, ha2, heq, addrs2, haddr, hm⟩

theorem fcrdnsOuter_true_iff (W : World) (ip : String) (allow : List String)
    (ptrs : List String) :
    (fcrdnsOuter W ip allow ptrs).1 = true ↔
      ∃ ptr ∈ ptrs, (fcrdnsInner W ip (trimSuffixStr ptr ".") allow).1 = true := by
  induction ptrs with
  | nil => simp [fcrdnsOuter]
  | cons ptr rest IH =>
    rw [fcrdnsOuter]
    cases hb : (fcrdnsInner W ip (trimSuffixStr ptr ".") allow).1 with
    | true =>
      simp only [if_true]
      exact ⟨fun _ => ⟨ptr, List.mem_cons_self _ _, hb⟩, fun _ => trivial⟩
    | false =>
      simp only [Bool.false_eq_true, if_false]
      show (fcrdnsOuter W ip allow rest).1 = true ↔ _
      rw [IH]
      constructor
      · rintro ⟨p, hp, hpi⟩; exact ⟨p, List.mem_cons_of_mem _ hp, hpi⟩
      · rintro ⟨p, hp, hpi⟩
        rcases List.mem_cons.mp hp with rfl | hp2
        · rw [hb] at hpi; cases hpi
        · exact ⟨p, hp2, hpi⟩

theorem isAllowedByFCrDNS_true_iff (W : World) (ip : String) (allow : List String) :
    (isAllowedByFCrDNS W ip allow).1 = true ↔
      allow ≠ [] ∧ ∃ ptrs, W.lookupAddr ip = some ptrs ∧
        ∃ ptr ∈ ptrs, ∃ a ∈ allow, eqFold (trimSuffixStr ptr ".") a = true ∧
          ∃ addrs, W.lookupHost (trimSuffixStr ptr ".") = some addrs ∧ ip ∈ addrs := by
  rw [isAllowedByFCrDNS]
  by_cases hlen : allow.length = 0
  · rw [if_pos hlen]
    have : allow = [] := List.length_eq_zero.mp hlen
    simp [this]
  · rw [if_neg hlen]
    have hne : allow ≠ [] := fun hnil => hlen (by simp [hnil])
    cases hA : W.lookupAddr ip with
    | none =>
      dsimp only
      simp only [hne, ne_eq, not_false_iff, true_and]
      constructor
      · intro hres; cases hres
      · rintro ⟨ptrs, hptrs, _⟩; cases hptrs
    | some ptrs =>
      dsimp only
      by_cases hp0 : ptrs.length = 0
      · rw [if_pos hp0]
        have hpnil : ptrs = [] := List.length_eq_zero.mp hp0
        subst hpnil
        simp [hne]
      · rw [if_neg hp0]
        constructor
        · intro hres
          have hres2 : (fcrdnsOuter W ip allow ptrs).1 = true := hres
          rcases (fcrdnsOuter_true_iff W ip allow ptrs).mp hres2 with ⟨ptr, hp, hpi⟩
          rcases (fcrdnsInner_true_iff W ip _ allow).mp hpi with ⟨a, ha, heq, addrs, haddr, hm⟩
          exact ⟨hne, ptrs, rfl, ptr, hp, a, ha, heq, addrs, haddr, hm⟩
        · rintro ⟨_, ptrs2, hptrs2, ptr, hp, a, ha, heq, addrs, haddr, hm⟩
          obtain rfl : ptrs = ptrs2 := by injection hptrs2
          show (fcrdnsOuter W ip allow ptrs).1 = true
          exact (fcrdnsOuter_true_iff W ip allow ptrs).mpr
            ⟨ptr, hp, (fcrdnsInner_true_iff W ip _ allow).mpr ⟨a, ha, heq, addrs, haddr, hm⟩⟩

/-! ### Example worlds and fixtures used by the witnesses -/

/-- A world in which `203.0.113.5` reverse-resolves to
`client.example.com.` and that hostname forward-resolves back to
`203.0.113.5`; one certificate file exists. -/
def exWorld : World where
  lookupAddr := fun ip => if ip = "203.0.113.5" then some ["client.example.com."] else none
  lookupHost := fun h => if h = "client.example.com" then some ["203.0.113.5"] else none
  readFile := fun p =>
    if p = "/etc/letsencrypt/live/example.org/fullchain.pem" then FileResult.ok "PEM BYTES"
    else FileResult.errNotExist

/-- The example configuration used by the witnesses. -/
def exConfig : Config :=
  { bearerToken := "sekrit", dnsAllowlist := ["client.example.com"],
    certsBaseDir := "/etc/letsencrypt/live" }

/-- C1: the FCrDNS verifier accepts iff the allowlist is non-empty, the
reverse lookup of the client address yields a PTR candidate whose
dot-stripped hostname matches an allowlist entry case-insensitively, and
the forward resolution of that hostname contains the original client
address; with an empty allowlist it rejects with no DNS lookup at all. -/
theorem fcrdns_accepts_iff (W : World) (ip : String) (allow : List String) :
    ((isAllowedByFCrDNS W ip allow).1 = true ↔
      allow ≠ [] ∧ ∃ ptrs, W.lookupAddr ip = some ptrs ∧
        ∃ ptr ∈ ptrs, ∃ a ∈ allow, eqFold (trimSuffixStr ptr ".") a = true ∧
          ∃ addrs, W.lookupHost (trimSuffixStr ptr ".") = some addrs ∧ ip ∈ addrs) ∧
    (allow = [] → isAllowedByFCrDNS W ip allow = (false, [])) := by
  refine ⟨isAllowedByFCrDNS_true_iff W ip allow, ?_⟩
  rintro rfl
  simp [isAllowedByFCrDNS]

/-- Witness for C1 at a concrete world: acceptance on a confirmed
round-trip, and the exact `(false, [])` result on an empty allowlist. -/
theorem fcrdns_accepts_iff_witness :
    (isAllowedByFCrDNS exWorld "203.0.113.5" ["client.example.com"]).1 = true ∧
    isAllowedByFCrDNS exWorld "203.0.113.5" [] = (false, []) := by
  constructor
  · exact (fcrdns_accepts_iff exWorld "203.0.113.5" ["client.example.com"]).1.mpr
      ⟨by decide, ["client.example.com."], by decide, "client.example.com.", by decide,
        "client.example.com", by decide, by decide, ["203.0.113.5"], by decide, by decide⟩
  · exact (fcrdns_accepts_iff exWorld "203.0.113.5" []).2 rfl

/-- C3: whenever the `Authorization` header differs from the exact
string `"Bearer "` followed by the configured secret — a missing header
being the empty string — the handler answers 401 and performs no DNS
lookup and no file read, whatever the path, peer address, resolver and
filesystem do. -/
theorem bearer_reject_short_circuits (cfg : Config) (W : World) (r : Request)
    (hne : r.authorizationHeader ≠ "Bearer " ++ cfg.bearerToken) :
    CertsHandler cfg W r = (httpError "Unauthorized" 401, []) := by
  rw [CertsHandler, if_neg hne]

/-- Witness for C3: a request with no `Authorization` header is refused
with 401 and an empty effect trace. -/
theorem bearer_reject_short_circuits_witness :
    CertsHandler exConfig exWorld
      { method := "GET", urlPath := "/certs/example.org/fullchain.pem",
        authorizationHeader := "", remoteAddr := "203.0.113.5:443" } =
      (httpError "Unauthorized" 401, []) :=
  bearer_reject_short_circuits exConfig exWorld _ (by decide)

/-- C9: the handler never inspects the request method: two requests
agreeing on path, `Authorization` header and remote address receive
identical responses and effect traces whatever their methods. -/
theorem method_never_inspected (cfg : Config) (W : World) (r1 r2 : Request)
    (hpath : r1.urlPath = r2.urlPath)
    (hauth : r1.authorizationHeader = r2.authorizationHeader)
    (haddr : r1.remoteAddr = r2.remoteAddr) :
    CertsHandler cfg W r1 = CertsHandler cfg W r2 := by
  cases r1
  cases r2
  simp only at hpath hauth haddr
  subst hpath hauth haddr
  rfl

/-- Witness for C9: a POST and a GET for the same resource produce the
same response. -/
theorem method_never_inspected_witness :
    CertsHandler exConfig exWorld
      { method := "POST", urlPath := "/certs/example.org/fullchain.pem",
        authorizationHeader := "Bearer sekrit", remoteAddr := "203.0.113.5:443" } =
    CertsHandler exConfig exWorld
      { method := "GET", urlPath := "/certs/example.org/fullchain.pem",
        authorizationHeader := "Bearer sekrit", remoteAddr := "203.0.113.5:443" } :=
  method_never_inspected exConfig exWorld _ _ rfl rfl rfl

/-- Under a correct bearer token, a parseable peer address and a positive
FCrDNS verdict, the handler reduces to the path-validation and
file-serving stages. -/
theorem CertsHandler_authorized (cfg : Config) (W : World) (r : Request)
    (ip port : String)
    (hauth : r.authorizationHeader = "Bearer " ++ cfg.bearerToken)
    (hsplit : splitHostPort r.remoteAddr = some (ip, port))
    (hfcr : (isAllowedByFCrDNS W ip cfg.dnsAllowlist).1 = true) :
    CertsHandler cfg W r =
      match splitN2 (trimPrefixStr r.urlPath "/certs/") with
      | [domain, fileName] =>
        if domain = "" then
          (httpError "Bad Request – expected /certs/\x7bdomain\x7d/\x7bfile\x7d" 400,
            (isAllowedByFCrDNS W ip cfg.dnsAllowlist).2)
        else if fileName = "" then
          (httpError "Bad Request – expected /certs/\x7bdomain\x7d/\x7bfile\x7d" 400,
            (isAllowedByFCrDNS W ip cfg.dnsAllowlist).2)
        else if strContains domain ".." || strContains domain "/" ||
            strContains domain "\\" then
          (httpError "Bad Request" 400, (isAllowedByFCrDNS W ip cfg.dnsAllowlist).2)
        else if allowedCertFiles fileName = false then
          (httpError "Not Found" 404, (isAllowedByFCrDNS W ip cfg.dnsAllowlist).2)
        else
          match W.readFile (filepathJoin [cfg.certsBaseDir, domain, fileName]) with
          | FileResult.errNotExist =>
            (httpError "Not Found" 404,
              (isAllowedByFCrDNS W ip cfg.dnsAllowlist).2 ++
                [Event.fsRead (filepathJoin [cfg.certsBaseDir, domain, fileName])])
          | FileResult.errOther =>
            (httpError "Internal Server Error" 500,
              (isAllowedByFCrDNS W ip cfg.dnsAllowlist).2 ++
                [Event.fsRead (filepathJoin [cfg.certsBaseDir, domain, fileName])])
          | FileResult.ok data =>
            ({ status := 200, contentType := some "application/x-pem-file", body := data },
              (isAllowedByFCrDNS W ip cfg.dnsAllowlist).2 ++
                [Event.fsRead (filepathJoin [cfg.certsBaseDir, domain, fileName])])
      | _ =>
        (httpError "Bad Request – expected /certs/\x7bdomain\x7d/\x7bfile\x7d" 400,
          (isAllowedByFCrDNS W ip cfg.dnsAllowlist).2) := by
  rw [CertsHandler, if_pos hauth, hsplit]
  dsimp only
  simp only [hfcr, if_true]

/-- C4: with authentication and FCrDNS authorization granted, the
response is 400 exactly when the path after the routing prefix fails to
split at its first slash into two non-empty segments, or the domain
segment contains a traversal token — and this holds for every
filesystem. -/
theorem path_validator_400_iff (cfg : Config) (W : World) (r : Request)
    (ip port : String)
    (hauth : r.authorizationHeader = "Bearer " ++ cfg.bearerToken)
    (hsplit : splitHostPort r.remoteAddr = some (ip, port))
    (hfcr : (isAllowedByFCrDNS W ip cfg.dnsAllowlist).1 = true) :
    ((CertsHandler cfg W r).1.status = 400 ↔
      (¬ ∃ d f, splitN2 (trimPrefixStr r.urlPath "/certs/") = [d, f] ∧ d ≠ "" ∧ f ≠ "") ∨
      (∃ d f, splitN2 (trimPrefixStr r.urlPath "/certs/") = [d, f] ∧
        (strContains d ".." = true ∨ strContains d "/" = true ∨
          strContains d "\\" = true))) := by
  rw [CertsHandler_authorized cfg W r ip port hauth hsplit hfcr]
  cases hsp : splitN2 (trimPrefixStr r.urlPath "/certs/") with
  | nil =>
    dsimp only [httpError]
    constructor
    · intro _
      exact Or.inl (by rintro ⟨d, f, hdf, _, _⟩; cases hdf)
    · intro _; rfl
  | cons d rest =>
    cases rest with
    | nil =>
      dsimp only [httpError]
      constructor
      · intro _
        exact Or.inl (by rintro ⟨d2, f2, hdf, _, _⟩; cases hdf)
      · intro _; rfl
    | cons f rest2 =>
      cases rest2 with
      | cons g rest3 =>
        dsimp only [httpError]
        constructor
        · intro _
          exact Or.inl (by rintro ⟨d2, f2, hdf, _, _⟩; injection hdf with h1 h2; cases h2)
        · intro _; rfl
      | nil =>
        dsimp only
        by_cases hd0 : d = ""
        · rw [if_pos hd0]
          dsimp only [httpError]
          constructor
          · intro _
            exact Or.inl (by
              rintro ⟨d2, f2, hdf, hne, _⟩
              injection hdf with h1 h2
              exact hne (h1 ▸ hd0))
          · intro _; rfl
        · rw [if_neg hd0]
          by_cases hf0 : f = ""
          · rw [if_pos hf0]
            dsimp only [httpError]
            constructor
            · intro _
              exact Or.inl (by
                rintro ⟨d2, f2, hdf, _, hne⟩
                injection hdf with h1 h2
                injection h2 with h2 _
                exact hne (h2 ▸ hf0))
            · intro _; rfl
          · rw [if_neg hf0]
            cases htrav : (strContains d ".." || strContains d "/" || strContains d "\\") with
            | true =>
              rw [if_pos rfl]
              dsimp only [httpError]
              constructor
              · intro _
                refine Or.inr ⟨d, f, rfl, ?_⟩
                rcases Bool.or_eq_true_iff.mp htrav with h | h
                · rcases Bool.or_eq_true_iff.mp h with h2 | h2
                  · exact Or.inl h2
                  · exact Or.inr (Or.inl h2)
                · exact Or.inr (Or.inr h)
              · intro _; rfl
            | false =>
              rw [if_neg (by simp [htrav])]
              have hnot400 : ∀ res : Response × List Event,
                  res.1.status ≠ 400 →
                  (res.1.status = 400 ↔
                    (¬ ∃ d2 f2, ([d, f] : List String) = [d2, f2] ∧ d2 ≠ "" ∧ f2 ≠ "") ∨
                    (∃ d2 f2, ([d, f] : List String) = [d2, f2] ∧
                      (strContains d2 ".." = true ∨ strContains d2 "/" = true ∨
                        strContains d2 "\\" = true))) := by
                intro res hres
                constructor
                · intro hx; exact absurd hx hres
                · rintro (habs | ⟨d2, f2, hdf, htr⟩)
                  · exact absurd ⟨d, f, rfl, hd0, hf0⟩ habs
                  · injection hdf with h1 h2
                    injection h2 with h2 _
                    subst h1; subst h2
                    rcases htr with h | h | h
                    all_goals
                      simp only [h] at htrav
                    · simp at htrav
                    · simp at htrav
                    · simp at htrav
              by_cases hfile : allowedCertFiles f = false
              · rw [if_pos hfile]
                exact hnot400 _ (by simp [httpError])
              · rw [if_neg hfile]
                cases hread : W.readFile (filepathJoin [cfg.certsBaseDir, d, f]) with
                | ok data => exact hnot400 _ (by simp [httpError])
                | errNotExist => exact hnot400 _ (by simp [httpError])
                | errOther => exact hnot400 _ (by simp [httpError])

/-- A world identical to `exWorld` except that every file read fails
with a non-`IsNotExist` error. -/
def exWorldIOFail : World where
  lookupAddr := fun ip => if ip = "203.0.113.5" then some ["client.example.com."] else none
  lookupHost := fun h => if h = "client.example.com" then some ["203.0.113.5"] else none
  readFile := fun _ => FileResult.errOther

/-- C5: with all earlier gates passed, a file name outside the fixed
allowed set is answered with 404 Not Found (never 400), with no
filesystem read: the effect trace stays exactly the DNS trace, for every
filesystem state. -/
theorem disallowed_filename_not_found (cfg : Config) (W : World) (r : Request)
    (ip port d f : String)
    (hauth : r.authorizationHeader = "Bearer " ++ cfg.bearerToken)
    (hsplit : splitHostPort r.remoteAddr = some (ip, port))
    (hfcr : (isAllowedByFCrDNS W ip cfg.dnsAllowlist).1 = true)
    (hsp : splitN2 (trimPrefixStr r.urlPath "/certs/") = [d, f])
    (hd0 : d ≠ "") (hf0 : f ≠ "")
    (hdd : strContains d ".." = false) (hds : strContains d "/" = false)
    (hdb : strContains d "\\" = false)
    (hfile : allowedCertFiles f = false) :
    CertsHandler cfg W r =
      (httpError "Not Found" 404, (isAllowedByFCrDNS W ip cfg.dnsAllowlist).2) := by
  rw [CertsHandler_authorized cfg W r ip port hauth hsplit hfcr, hsp]
  dsimp only
  rw [if_neg hd0, if_neg hf0, if_neg (by simp [hdd, hds, hdb]), if_pos hfile]

/-- Witness for C5: `secret.txt` yields 404 with no file read even
though no domain validation failed. -/
theorem disallowed_filename_not_found_witness :
    CertsHandler exConfig exWorld
      { method := "GET", urlPath := "/certs/example.org/secret.txt",
        authorizationHeader := "Bearer sekrit", remoteAddr := "203.0.113.5:443" } =
      (httpError "Not Found" 404,
        (isAllowedByFCrDNS exWorld "203.0.113.5" ["client.example.com"]).2) :=
  disallowed_filename_not_found exConfig exWorld _ "203.0.113.5" "443" "example.org"
    "secret.txt" (by decide) (by decide) (by decide) (by decide) (by decide) (by decide)
    (by decide) (by decide) (by decide) (by decide)

/-- C6: after every gate has passed, a missing file maps to 404 and any
other read failure maps to 500 whose body is the fixed generic string
with no path detail. -/
theorem file_read_error_mapping (cfg : Config) (W : World) (r : Request)
    (ip port d f : String)
    (hauth : r.authorizationHeader = "Bearer " ++ cfg.bearerToken)
    (hsplit : splitHostPort r.remoteAddr = some (ip, port))
    (hfcr : (isAllowedByFCrDNS W ip cfg.dnsAllowlist).1 = true)
    (hsp : splitN2 (trimPrefixStr r.urlPath "/certs/") = [d, f])
    (hd0 : d ≠ "") (hf0 : f ≠ "")
    (hdd : strContains d ".." = false) (hds : strContains d "/" = false)
    (hdb : strContains d "\\" = false)
    (hfile : allowedCertFiles f = true) :
    (W.readFile (filepathJoin [cfg.certsBaseDir, d, f]) = FileResult.errNotExist →
      (CertsHandler cfg W r).1 = httpError "Not Found" 404) ∧
    (W.readFile (filepathJoin [cfg.certsBaseDir, d, f]) = FileResult.errOther →
      (CertsHandler cfg W r).1 = httpError "Internal Server Error" 500 ∧
        (CertsHandler cfg W r).1.body = "Internal Server Error\n") := by
  rw [CertsHandler_authorized cfg W r ip port hauth hsplit hfcr, hsp]
  dsimp only
  rw [if_neg hd0, if_neg hf0, if_neg (by simp [hdd, hds, hdb]),
    if_neg (by simp [hfile])]
  constructor
  · intro hread; rw [hread]
  · intro hread; rw [hread]
    exact ⟨rfl, rfl⟩

/-- Witness for C6: a missing file yields 404, and an I/O failure yields
the generic 500 body. -/
theorem file_read_error_mapping_witness :
    (CertsHandler exConfig exWorld
      { method := "GET", urlPath := "/certs/example.org/privkey.pem",
        authorizationHeader := "Bearer sekrit", remoteAddr := "203.0.113.5:443" }).1 =
      httpError "Not Found" 404 ∧
    (CertsHandler exConfig exWorldIOFail
      { method := "GET", urlPath := "/certs/example.org/privkey.pem",
        authorizationHeader := "Bearer sekrit", remoteAddr := "203.0.113.5:443" }).1 =
      httpError "Internal Server Error" 500 := by
  constructor
  · exact (file_read_error_mapping exConfig exWorld _ "203.0.113.5" "443" "example.org"
      "privkey.pem" (by decide) (by decide) (by decide) (by decide) (by decide) (by decide)
      (by decide) (by decide) (by decide) (by decide)).1 (by decide)
  · exact ((file_read_error_mapping exConfig exWorldIOFail _ "203.0.113.5" "443" "example.org"
      "privkey.pem" (by decide) (by decide) (by decide) (by decide) (by decide) (by decide)
      (by decide) (by decide) (by decide) (by decide)).2 (by decide)).1

/-- C8: a fully validated and authorized request for an existing file is
answered 200 with the PEM content type and exactly the file's bytes;
since the handler is a pure function of the configuration, the world and
the request, repeated identical requests return byte-identical
responses. -/
theorem serve_success_deterministic (cfg : Config) (W : World) (r : Request)
    (ip port d f data : String)
    (hauth : r.authorizationHeader = "Bearer " ++ cfg.bearerToken)
    (hsplit : splitHostPort r.remoteAddr = some (ip, port))
    (hfcr : (isAllowedByFCrDNS W ip cfg.dnsAllowlist).1 = true)
    (hsp : splitN2 (trimPrefixStr r.urlPath "/certs/") = [d, f])
    (hd0 : d ≠ "") (hf0 : f ≠ "")
    (hdd : strContains d ".." = false) (hds : strContains d "/" = false)
    (hdb : strContains d "\\" = false)
    (hfile : allowedCertFiles f = true)
    (hread : W.readFile (filepathJoin [cfg.certsBaseDir, d, f]) = FileResult.ok data) :
    (CertsHandler cfg W r).1 =
      { status := 200, contentType := some "application/x-pem-file", body := data } := by
  rw [CertsHandler_authorized cfg W r ip port hauth hsplit hfcr, hsp]
  dsimp only
  rw [if_neg hd0, if_neg hf0, if_neg (by simp [hdd, hds, hdb]),
    if_neg (by simp [hfile]), hread]

/-- Witness for C8: the example request is served with status 200, the
PEM content type, and the file bytes. -/
theorem serve_success_deterministic_witness :
    (CertsHandler exConfig exWorld
      { method := "GET", urlPath := "/certs/example.org/fullchain.pem",
        authorizationHeader := "Bearer sekrit", remoteAddr := "203.0.113.5:443" }).1 =
      { status := 200, contentType := some "application/x-pem-file", body := "PEM BYTES" } :=
  serve_success_deterministic exConfig exWorld _ "203.0.113.5" "443" "example.org"
    "fullchain.pem" "PEM BYTES" (by decide) (by decide) (by decide) (by decide) (by decide)
    (by decide) (by decide) (by decide) (by decide) (by decide) (by decide)

/-- C7: a forward-resolution error for a name-matched candidate does not
abort evaluation — the remaining allowlist entries and PTR candidates
are still checked — and a 500 response can only arise from a file read
failing with a non-`IsNotExist` error, never from DNS resolution. -/
theorem dns_error_recovery :
    (∀ (W : World) (ip h a : String) (rest : List String),
      eqFold h a = true → W.lookupHost h = none →
      (fcrdnsInner W ip h (a :: rest)).1 = (fcrdnsInner W ip h rest).1) ∧
    (∀ (W : World) (ip : String) (allow : List String) (ptr : String) (rest : List String),
      (fcrdnsInner W ip (trimSuffixStr ptr ".") allow).1 = false →
      (fcrdnsOuter W ip allow (ptr :: rest)).1 = (fcrdnsOuter W ip allow rest).1) ∧
    (∀ (cfg : Config) (W : World) (r : Request),
      (CertsHandler cfg W r).1.status = 500 →
      ∃ p, W.readFile p = FileResult.errOther) := by
  refine ⟨?_, ?_, ?_⟩
  · intro W ip h a rest hmatch herr
    rw [fcrdnsInner, if_neg (by simp [hmatch]), herr]
  · intro W ip allow ptr rest hfail
    rw [fcrdnsOuter]
    simp [hfail]
  · intro cfg W r h
    by_cases hauth : r.authorizationHeader = "Bearer " ++ cfg.bearerToken
    · cases hsp : splitHostPort r.remoteAddr with
      | none =>
        rw [CertsHandler, if_pos hauth, hsp] at h
        exact absurd h (by simp [httpError])
      | some pr =>
        obtain ⟨ip, port⟩ := pr
        by_cases hfcr : (isAllowedByFCrDNS W ip cfg.dnsAllowlist).1 = true
        · rw [CertsHandler_authorized cfg W r ip port hauth hsp hfcr] at h
          cases hsp2 : splitN2 (trimPrefixStr r.urlPath "/certs/") with
          | nil =>
            rw [hsp2] at h
            exact absurd h (by simp [httpError])
          | cons d rest =>
            cases rest with
            | nil =>
              rw [hsp2] at h
              exact absurd h (by simp [httpError])
            | cons f rest2 =>
              cases rest2 with
              | cons g rest3 =>
                rw [hsp2] at h
                exact absurd h (by simp [httpError])
              | nil =>
                rw [hsp2] at h
                dsimp only at h
                by_cases hd0 : d = ""
                · rw [if_pos hd0] at h
                  exact absurd h (by simp [httpError])
                · rw [if_neg hd0] at h
                  by_cases hf0 : f = ""
                  · rw [if_pos hf0] at h
                    exact absurd h (by simp [httpError])
                  · rw [if_neg hf0] at h
                    cases htrav : (strContains d ".." || strContains d "/" ||
                        strContains d "\\") with
                    | true =>
                      rw [if_pos (by rw [htrav])] at h
                      exact absurd h (by simp [httpError])
                    | false =>
                      rw [if_neg (by simp [htrav])] at h
                      by_cases hfile : allowedCertFiles f = false
                      · rw [if_pos hfile] at h
                        exact absurd h (by simp [httpError])
                      · rw [if_neg hfile] at h
                        cases hread : W.readFile (filepathJoin [cfg.certsBaseDir, d, f]) with
                        | ok data =>
                          rw [hread] at h
                          exact absurd h (by simp [httpError])
                        | errNotExist =>
                          rw [hread] at h
                          exact absurd h (by simp [httpError])
                        | errOther => exact ⟨_, hread⟩
        · rw [CertsHandler, if_pos hauth, hsp] at h
          dsimp only at h
          rw [if_neg hfcr] at h
          exact absurd h (by simp [httpError])
    · rw [CertsHandler, if_neg hauth] at h
      exact absurd h (by simp [httpError])

/-- A world whose forward lookup errors for `a.example` but confirms
`b.example`, with both names appearing as PTR candidates. -/
def exWorldFwdErr : World where
  lookupAddr := fun ip => if ip = "1.2.3.4" then some ["a.example.", "b.example."] else none
  lookupHost := fun h => if h = "b.example" then some ["1.2.3.4"] else none
  readFile := fun _ => FileResult.errNotExist

/-- Witness for C7: in a world where the first candidate's forward
lookup errors, the verifier still accepts via the second candidate, and
the concrete 500 case exhibits its failing file read. -/
theorem dns_error_recovery_witness :
    (fcrdnsInner exWorldFwdErr "1.2.3.4" "a.example"
        ("a.example" :: ["b.example"])).1 =
      (fcrdnsInner exWorldFwdErr "1.2.3.4" "a.example" ["b.example"]).1 ∧
    (fcrdnsOuter exWorld "203.0.113.5" ["client.example.com"]
        ("unrelated.example." :: [])).1 =
      (fcrdnsOuter exWorld "203.0.113.5" ["client.example.com"] []).1 ∧
    ∃ p, exWorldIOFail.readFile p = FileResult.errOther := by
  refine ⟨?_, ?_, ?_⟩
  · exact dns_error_recovery.1 exWorldFwdErr "1.2.3.4" "a.example"
      "a.example" ["b.example"] (by decide) (by decide)
  · exact dns_error_recovery.2.1 exWorld "203.0.113.5" ["client.example.com"]
      "unrelated.example." [] (by decide)
  · exact dns_error_recovery.2.2 exConfig exWorldIOFail
      { method := "GET", urlPath := "/certs/example.org/privkey.pem",
        authorizationHeader := "Bearer sekrit", remoteAddr := "203.0.113.5:443" }
      (by decide)

/-- Witness for C4: a traversal attempt `/certs/../etc/fullchain.pem`
is rejected with 400 by an authorized request. -/
theorem path_validator_400_iff_witness :
    (CertsHandler exConfig exWorld
      { method := "GET", urlPath := "/certs/../etc/fullchain.pem",
        authorizationHeader := "Bearer sekrit", remoteAddr := "203.0.113.5:443" }).1.status =
      400 :=
  (path_validator_400_iff exConfig exWorld _ "203.0.113.5" "443" (by decide) (by decide)
      (by decide)).mpr
    (Or.inr ⟨"..", "etc/fullchain.pem", by decide, Or.inl (by decide)⟩)

/-- A world that reverse-resolves the IPv6 loopback written `::1` to the
allowlisted hostname, whose forward lookup then returns the textually
different form `0:0:0:0:0:0:0:1` of the same address. -/
def exWorldV6Long : World where
  lookupAddr := fun ip => if ip = "::1" then some ["client.example.com."] else none
  lookupHost := fun h => if h = "client.example.com" then some ["0:0:0:0:0:0:0:1"] else none
  readFile := fun _ => FileResult.errNotExist

/-- Like `exWorldV6Long` but the forward lookup returns the exact string
`::1`. -/
def exWorldV6Short : World where
  lookupAddr := fun ip => if ip = "::1" then some ["client.example.com."] else none
  lookupHost := fun h => if h = "client.example.com" then some ["::1"] else none
  readFile := fun _ => FileResult.errNotExist

/-- C10: forward confirmation is raw string equality of forward-lookup
results against the host portion that `net.SplitHostPort` extracts from
the peer address, with no IP normalization: acceptance always exhibits a
forward-lookup list containing the client address verbatim, the host of
`[::1]:12345` is the string `::1`, and a forward answer written
`0:0:0:0:0:0:0:1` does not match the client `::1` while the answer
`::1` does. -/
theorem forward_confirmation_raw_string (W : World) (ip : String) (allow : List String)
    (hacc : (isAllowedByFCrDNS W ip allow).1 = true) :
    (∃ h addrs, W.lookupHost h = some addrs ∧ ip ∈ addrs) ∧
    splitHostPort "[::1]:12345" = some ("::1", "12345") ∧
    (isAllowedByFCrDNS exWorldV6Long "::1" ["client.example.com"]).1 = false ∧
    (isAllowedByFCrDNS exWorldV6Short "::1" ["client.example.com"]).1 = true := by
  refine ⟨?_, by decide, by decide, by decide⟩
  rcases (isAllowedByFCrDNS_true_iff W ip allow).mp hacc with
    ⟨_, ptrs, _, ptr, _, a, _, _, addrs, haddr, hm⟩
  exact ⟨trimSuffixStr ptr ".", addrs, haddr, hm⟩

/-- Witness for C10: the accepting IPv6 world exhibits a verbatim match
for the raw client string `::1`. -/
theorem forward_confirmation_raw_string_witness :
    ∃ h addrs, exWorldV6Short.lookupHost h = some addrs ∧ "::1" ∈ addrs :=
  (forward_confirmation_raw_string exWorldV6Short "::1" ["client.example.com"]
    (by decide)).1

/-! ### Lemmas: slash-splitting and segment rendering -/

theorem splitSlashCore_append (b : List Char) :
    ∀ a : List Char, splitSlashCore (a ++ '/' :: b) =
      ((splitSlashCore a).1, (splitSlashCore a).2 ++ splitSlash b)
  | [] => by simp [splitSlashCore, splitSlash]
  | c :: rest => by
    by_cases hc : c = '/'
    · subst hc
      simp [splitSlashCore, splitSlashCore_append b rest, splitSlash]
    · simp [splitSlashCore, hc, splitSlashCore_append b rest]

theorem splitSlash_append (a b : List Char) :
    splitSlash (a ++ '/' :: b) = splitSlash a ++ splitSlash b := by
  simp [splitSlash, splitSlashCore_append b a]

theorem splitSlashCore_no_slash : ∀ {a : List Char}, '/' ∉ a → splitSlashCore a = (a, [])
  | [], _ => rfl
  | c :: rest, h => by
    have hc : ¬ c = '/' := fun hx => h (hx ▸ List.mem_cons_self c rest)
    have hr : '/' ∉ rest := fun hx => h (List.mem_cons_of_mem c hx)
    simp [splitSlashCore, hc, splitSlashCore_no_slash hr]

theorem splitSlash_no_slash {a : List Char} (h : '/' ∉ a) : splitSlash a = [a] := by
  simp [splitSlash, splitSlashCore_no_slash h]

theorem joinSegs_append (ys : List (List Char)) (hy : ys ≠ []) :
    ∀ xs : List (List Char), xs ≠ [] →
      joinSegs (xs ++ ys) = joinSegs xs ++ '/' :: joinSegs ys
  | [], hx => absurd rfl hx
  | [x], _ => by
    cases ys with
    | nil => exact absurd rfl hy
    | cons y ys2 => simp [joinSegs]
  | x1 :: x2 :: xs, _ => by
    have IH := joinSegs_append ys hy (x2 :: xs) (by simp)
    show joinSegs (x1 :: (x2 :: (xs ++ ys))) = joinSegs (x1 :: x2 :: xs) ++ '/' :: joinSegs ys
    calc joinSegs (x1 :: (x2 :: (xs ++ ys)))
        = x1 ++ '/' :: joinSegs (x2 :: (xs ++ ys)) := rfl
      _ = x1 ++ '/' :: (joinSegs (x2 :: xs) ++ '/' :: joinSegs ys) := by
          rw [show x2 :: (xs ++ ys) = (x2 :: xs) ++ ys from rfl, IH]
      _ = (x1 ++ '/' :: joinSegs (x2 :: xs)) ++ '/' :: joinSegs ys := by
          simp [List.append_assoc]
      _ = joinSegs (x1 :: x2 :: xs) ++ '/' :: joinSegs ys := rfl

theorem stepSeg_no_nil {rooted : Bool} {stack : List (List Char)} {seg : List Char}
    (h : [] ∉ stack) : [] ∉ stepSeg rooted stack seg := by
  intro hmem
  unfold stepSeg at hmem
  by_cases h0 : seg = []
  · rw [if_pos h0] at hmem; exact h hmem
  · rw [if_neg h0] at hmem
    by_cases h1 : seg = ['.']
    · rw [if_pos h1] at hmem; exact h hmem
    · rw [if_neg h1] at hmem
      by_cases h2 : seg = ['.', '.']
      · rw [if_pos h2] at hmem
        cases stack with
        | nil =>
          cases rooted with
          | true => simp at hmem
          | false =>
            simp at hmem
            first
              | exact h0 hmem.symm
              | exact h0 hmem
        | cons top rest =>
          dsimp only at hmem
          by_cases h3 : top = ['.', '.']
          · rw [if_pos h3] at hmem
            rcases List.mem_cons.mp hmem with hx | hx
            · exact h0 hx.symm
            · exact h hx
          · rw [if_neg h3] at hmem
            exact h (List.mem_cons_of_mem top hmem)
      · rw [if_neg h2] at hmem
        rcases List.mem_cons.mp hmem with hx | hx
        · exact h0 hx.symm
        · exact h hx

theorem foldl_stepSeg_no_nil (rooted : Bool) :
    ∀ (segs : List (List Char)) (stack : List (List Char)), [] ∉ stack →
      [] ∉ segs.foldl (stepSeg rooted) stack
  | [], stack, h => h
  | seg :: rest, stack, h =>
    foldl_stepSeg_no_nil rooted rest (stepSeg rooted stack seg) (stepSeg_no_nil h)

theorem joinSegs_ne_nil {xs : List (List Char)} (hx : xs ≠ []) (hmem : [] ∉ xs) :
    joinSegs xs ≠ [] := by
  cases xs with
  | nil => exact absurd rfl hx
  | cons x rest =>
    cases rest with
    | nil =>
      intro h
      have hx0 : x = [] := by simpa [joinSegs] using h
      exact hmem (by simp [hx0])
    | cons y rest2 =>
      show x ++ '/' :: joinSegs (y :: rest2) ≠ []
      intro h
      rcases List.append_eq_nil.mp h with ⟨_, h2⟩
      cases h2

theorem hasSubstr_single {c : Char} : ∀ {cs : List Char},
    hasSubstrAux [c] cs = false → c ∉ cs
  | [], _ => List.not_mem_nil c
  | x :: rest, h => by
    rw [hasSubstrAux, Bool.or_eq_false_iff] at h
    obtain ⟨h1, h2⟩ := h
    intro hmem
    rcases List.mem_cons.mp hmem with hx | hx
    · subst hx
      simp [List.isPrefixOf] at h1
    · exact hasSubstr_single h2 hx

theorem stepSeg_push {rooted : Bool} {S : List (List Char)} {seg : List Char}
    (h0 : seg ≠ []) (h1 : seg ≠ ['.']) (h2 : seg ≠ ['.', '.']) :
    stepSeg rooted S seg = seg :: S := by
  unfold stepSeg
  rw [if_neg h0, if_neg h1, if_neg h2]

theorem stepSeg_dot {rooted : Bool} {S : List (List Char)} :
    stepSeg rooted S ['.'] = S := by
  unfold stepSeg
  rw [if_neg (by simp), if_pos rfl]

theorem renderClean_snoc (rooted : Bool) (S : List (List Char)) (x : List Char)
    (hS : [] ∉ S) (hx : x ≠ []) :
    renderClean rooted (x :: S) =
      if S = [] then (if rooted then '/' :: x else x)
      else renderClean rooted S ++ '/' :: x := by
  cases hS0 : S with
  | nil =>
    rw [if_pos rfl]
    unfold renderClean
    cases rooted with
    | true => simp [joinSegs]
    | false => simp [joinSegs, hx]
  | cons s0 S0 =>
    rw [if_neg (by simp)]
    have hmem0 : [] ∉ s0 :: S0 := hS0 ▸ hS
    have hrev : (x :: s0 :: S0).reverse = (s0 :: S0).reverse ++ [x] := by simp
    have hb : joinSegs ((s0 :: S0).reverse ++ [x])
        = joinSegs ((s0 :: S0).reverse) ++ '/' :: joinSegs [x] :=
      joinSegs_append [x] (by simp) _ (by simp)
    have hbody : joinSegs ((s0 :: S0).reverse) ≠ [] := by
      refine joinSegs_ne_nil (by simp) ?_
      intro hmem
      rw [List.mem_reverse] at hmem
      exact hmem0 hmem
    unfold renderClean
    rw [hrev, hb]
    cases rooted with
    | true => simp [joinSegs]
    | false =>
      rw [if_neg (fun h => hbody (List.append_eq_nil.mp h).1), if_neg hbody]
      simp [joinSegs]

/-- Characterization of the path join performed by the handler when the
base directory is already in cleaned form and differs from the current
directory: the result is literally the root, a separator, and the
validated relative part. -/
theorem filepathJoin_clean_root_eq (root d f : String)
    (hclean : filepathClean root = root) (hdot : root ≠ ".")
    (hd0 : d ≠ "") (hdd : strContains d ".." = false)
    (hds : strContains d "/" = false)
    (hfile : allowedCertFiles f = true) :
    filepathJoin [root, d, f] =
      (if root = "/" then "/" else root ++ "/") ++
        (if d = "." then f else d ++ "/" ++ f) := by
  -- facts about the allowed file name
  have hf4 : f = "fullchain.pem" ∨ f = "privkey.pem" ∨ f = "cert.pem" ∨ f = "chain.pem" := by
    simpa [allowedCertFiles, beq_iff_eq, Bool.or_eq_true, or_assoc] using hfile
  obtain ⟨hfslash, hfne, hfdot, hfdd⟩ :
      '/' ∉ f.data ∧ f.data ≠ [] ∧ f.data ≠ ['.'] ∧ f.data ≠ ['.', '.'] := by
    rcases hf4 with rfl | rfl | rfl | rfl <;> exact ⟨by decide, by decide, by decide, by decide⟩
  -- facts about the root
  have hroot0 : root ≠ "" := by
    intro h0
    rw [h0] at hclean
    exact absurd ((show filepathClean "" = "." by decide).symm.trans hclean) (by decide)
  have hrootdata : root.data ≠ [] := by
    intro hx
    exact hroot0 (String.ext (hx.trans (by decide)))
  -- facts about the domain
  have hdslash : '/' ∉ d.data := hasSubstr_single (hds : hasSubstrAux ['/'] d.data = false)
  have hdne : d.data ≠ [] := by
    intro hx
    exact hd0 (String.ext (hx.trans (by decide)))
  have hddd : d.data ≠ ['.', '.'] := by
    intro hx
    have hdeq : d = ".." := String.ext (hx.trans (by decide))
    rw [hdeq] at hdd
    exact absurd hdd (by decide)
  -- unfold the join to a single Clean call
  have hjoin : filepathJoin [root, d, f] =
      filepathClean ((root ++ "/") ++ ((d ++ "/") ++ f)) := by
    rw [filepathJoin, if_neg hroot0]
    rfl
  have hargdata : ((root ++ "/") ++ ((d ++ "/") ++ f)).data
      = root.data ++ '/' :: (d.data ++ '/' :: f.data) := by
    simp [String.data_append]
  -- the segment pipeline
  have hR : isRooted (root.data ++ '/' :: (d.data ++ '/' :: f.data)) = isRooted root.data := by
    cases hx : root.data with
    | nil => exact absurd hx hrootdata
    | cons c l => rfl
  have hsplit2 : splitSlash (root.data ++ '/' :: (d.data ++ '/' :: f.data))
      = splitSlash root.data ++ [d.data, f.data] := by
    rw [splitSlash_append, splitSlash_append, splitSlash_no_slash hdslash,
      splitSlash_no_slash hfslash]
    rfl
  have hSnil : [] ∉ (splitSlash root.data).foldl (stepSeg (isRooted root.data)) [] :=
    foldl_stepSeg_no_nil _ _ _ (by simp)
  have hcc : renderClean (isRooted root.data)
      ((splitSlash root.data).foldl (stepSeg (isRooted root.data)) []) = root.data :=
    congrArg String.data hclean
  have hcalc : (filepathClean ((root ++ "/") ++ ((d ++ "/") ++ f))).data
      = renderClean (isRooted root.data)
          (stepSeg (isRooted root.data)
            (stepSeg (isRooted root.data)
              ((splitSlash root.data).foldl (stepSeg (isRooted root.data)) []) d.data)
            f.data) := by
    show cleanChars (((root ++ "/") ++ ((d ++ "/") ++ f)).data) = _
    rw [hargdata, cleanChars, hR, hsplit2, List.foldl_append]
    rfl
  -- abbreviate the processed stack
  set rooted := isRooted root.data with hrootedDef
  set S := (splitSlash root.data).foldl (stepSeg rooted) [] with hSdef
  have hSrevmem : ∀ hm : List Char, hm ∈ S.reverse → hm ≠ [] := by
    intro hm hmem hx
    exact hSnil (hx ▸ List.mem_reverse.mp hmem)
  by_cases hS0 : S = []
  · -- the cleaned root has an empty segment stack: root must be "/"
    rw [hS0] at hcc
    cases hrb : rooted with
    | false =>
      rw [hrb] at hcc
      have h1 : root.data = ['.'] := by
        rw [← hcc] <;> decide
      exact absurd (String.ext (by rw [h1] <;> decide) : root = ".") hdot
    | true =>
      rw [hrb] at hcc
      have h1 : root.data = ['/'] := by
        rw [← hcc] <;> decide
      have hrooteq : root = "/" := String.ext (by rw [h1] <;> decide)
      refine String.ext ?_
      rw [hjoin, hcalc, hS0, hrb]
      by_cases hdotd : d.data = ['.']
      · have hdeq : d = "." := String.ext (by rw [hdotd] <;> decide)
        rw [hdotd, stepSeg_dot,
          stepSeg_push hfne hfdot hfdd,
          renderClean_snoc true [] f.data (by simp) hfne,
          if_pos rfl, if_pos rfl, if_pos hrooteq, if_pos hdeq]
        simp [String.data_append]
      · have hdne2 : d ≠ "." := fun hx => hdotd (by rw [hx] <;> decide)
        rw [stepSeg_push hdne hdotd hddd,
          stepSeg_push hfne hfdot hfdd,
          renderClean_snoc true [d.data] f.data (by simp [Ne.symm hdne]) hfne,
          if_neg (by simp),
          renderClean_snoc true [] d.data (by simp) hdne,
          if_pos rfl, if_pos rfl, if_pos hrooteq, if_neg hdne2]
        simp [String.data_append]
  · -- non-trivial root stack: root keeps its own rendering
    have hrootne : root ≠ "/" := by
      intro hroot
      have hrootd : root.data = ['/'] := by rw [hroot] <;> decide
      have hrb : rooted = true := by rw [hrootedDef, hrootd] <;> decide
      rw [hrb, hrootd] at hcc
      have hj : joinSegs S.reverse = [] := by
        unfold renderClean at hcc
        rw [if_pos rfl] at hcc
        injection hcc
      exact joinSegs_ne_nil (by simpa using hS0)
        (fun hm => hSnil (List.mem_reverse.mp hm)) hj
    refine String.ext ?_
    rw [hjoin, hcalc]
    by_cases hdotd : d.data = ['.']
    · have hdeq : d = "." := String.ext (by rw [hdotd] <;> decide)
      rw [hdotd, stepSeg_dot,
        stepSeg_push hfne hfdot hfdd,
        renderClean_snoc rooted S f.data hSnil hfne,
        if_neg hS0, hcc, if_neg hrootne, if_pos hdeq]
      simp [String.data_append]
    · have hdne2 : d ≠ "." := fun hx => hdotd (by rw [hx] <;> decide)
      have hmem2 : [] ∉ d.data :: S := by
        intro hmem
        rcases List.mem_cons.mp hmem with hx | hx
        · exact hdne hx.symm
        · exact hSnil hx
      rw [stepSeg_push hdne hdotd hddd,
        stepSeg_push hfne hfdot hfdd,
        renderClean_snoc rooted (d.data :: S) f.data hmem2 hfne,
        if_neg (by simp),
        renderClean_snoc rooted S d.data hSnil hdne,
        if_neg hS0, hcc, if_neg hrootne, if_neg hdne2]
      simp [String.data_append]

/-- C2 (amended): for every certificate root already in cleaned form
(`filepathClean root = root`) and different from `"."`, every non-empty
domain segment free of `..`, `/` and backslash, and every file name from
the fixed allowed set, the joined path is exactly the root, a
separator, and the validated relative part — so the root is a proper
path prefix of the result and no validated request reads outside it. -/
theorem join_stays_beneath_clean_root (root d f : String)
    (hclean : filepathClean root = root) (hdot : root ≠ ".")
    (hd0 : d ≠ "") (hdd : strContains d ".." = false)
    (hds : strContains d "/" = false) (hdb : strContains d "\\" = false)
    (hfile : allowedCertFiles f = true) :
    filepathJoin [root, d, f] =
      (if root = "/" then "/" else root ++ "/") ++
        (if d = "." then f else d ++ "/" ++ f) ∧
    root.data.isPrefixOf (filepathJoin [root, d, f]).data = true ∧
    filepathJoin [root, d, f] ≠ root := by
  have heq := filepathJoin_clean_root_eq root d f hclean hdot hd0 hdd hds hfile
  have hfne : f.data ≠ [] := by
    have hf4 : f = "fullchain.pem" ∨ f = "privkey.pem" ∨ f = "cert.pem" ∨ f = "chain.pem" := by
      simpa [allowedCertFiles, beq_iff_eq, Bool.or_eq_true, or_assoc] using hfile
    rcases hf4 with rfl | rfl | rfl | rfl <;> decide
  refine ⟨heq, ?_, ?_⟩
  · rw [heq]
    by_cases hr : root = "/"
    · rw [if_pos hr, hr]
      refine List.isPrefixOf_iff_prefix.mpr ?_
      rw [String.data_append]
      exact List.prefix_append _ _
    · rw [if_neg hr]
      refine List.isPrefixOf_iff_prefix.mpr ?_
      rw [String.data_append, String.data_append, List.append_assoc]
      exact List.prefix_append _ _
  · rw [heq]
    intro hx
    have hdata := congrArg String.data hx
    have hslash : ("/" : String).data.length = 1 := by decide
    by_cases hr : root = "/"
    · rw [if_pos hr, hr] at hdata
      by_cases hd : d = "."
      · rw [if_pos hd] at hdata
        rw [String.data_append] at hdata
        have hlen := congrArg List.length hdata
        rw [List.length_append] at hlen
        have hf0 : f.data.length = 0 := by omega
        exact hfne (List.length_eq_zero.mp hf0)
      · rw [if_neg hd] at hdata
        rw [String.data_append, String.data_append, String.data_append] at hdata
        have hlen := congrArg List.length hdata
        rw [List.length_append, List.length_append, List.length_append] at hlen
        omega
    · rw [if_neg hr] at hdata
      rw [String.data_append, String.data_append] at hdata
      have hlen := congrArg List.length hdata
      rw [List.length_append, List.length_append] at hlen
      omega

/-- C2 counterexample: with root `"."` (an allowed root directory for
the claim as stated), a fully validated domain and file name produce a
join that does not retain the root as a path prefix at all: the result
is `example.org/cert.pem`, which neither starts with `"."` nor equals
it. -/
theorem join_escapes_dot_root :
    filepathJoin [".", "example.org", "cert.pem"] = "example.org/cert.pem" ∧
    ("." : String).data.isPrefixOf
      (filepathJoin [".", "example.org", "cert.pem"]).data = false ∧
    filepathJoin [".", "example.org", "cert.pem"] ≠ "." := by
  exact ⟨by decide, by decide, by decide⟩

/-- Witness for the amended C2 at the repository's default root: the
root stays a proper prefix of the joined path. -/
theorem join_stays_beneath_clean_root_witness :
    ("/etc/letsencrypt/live" : String).data.isPrefixOf
      (filepathJoin ["/etc/letsencrypt/live", "example.org", "cert.pem"]).data = true ∧
    filepathJoin ["/etc/letsencrypt/live", "example.org", "cert.pem"] ≠
      "/etc/letsencrypt/live" :=
  ⟨(join_stays_beneath_clean_root "/etc/letsencrypt/live" "example.org" "cert.pem"
      (by decide) (by decide) (by decide) (by decide) (by decide) (by decide)
      (by decide)).2.1,
    (join_stays_beneath_clean_root "/etc/letsencrypt/live" "example.org" "cert.pem"
      (by decide) (by decide) (by decide) (by decide) (by decide) (by decide)
      (by decide)).2.2⟩

end Certs
